import Mathlib

set_option maxRecDepth 4000

/-!
Verification development for the charmap token-substitution engine
(main.go).  Go byte strings are modelled as `List Char`; the key-value
mapping (a Go map together with its iteration order) is modelled as an
association list; fallible operations return `Except`.
-/

/-- Tests whether the first list begins the second one
(models Go `strings.HasPrefix` / the per-position test done by
`strings.Replacer`). -/
def leadsWith : List Char → List Char → Bool
  | [], _ => true
  | _ :: _, [] => false
  | a :: as, b :: bs => a == b && leadsWith as bs

/-- Models Go `strings.Index`: index of the first occurrence of `needle`
in `hay`, `none` when absent (Go returns -1).  An empty needle yields 0. -/
def strIndex (needle : List Char) : List Char → Option Nat
  | [] => if needle.isEmpty then some 0 else none
  | c :: rest =>
    if leadsWith needle (c :: rest) then some 0
    else (strIndex needle rest).map (· + 1)

/-- The pattern/replacement pairs built in `buildNewReplacer`:
for each key `k` with value `v` the pair `(open ++ k ++ close, v)`,
in map-iteration order. -/
def mkPairs (od cd : List Char) (values : List (List Char × List Char)) :
    List (List Char × List Char) :=
  values.map fun kv => (od ++ kv.1 ++ cd, kv.2)

/-- Models `strings.Replacer.Replace` (documented semantics: scan left to
right, replace the earliest match, compare patterns in argument order at
each position, never rescan replacement text).  Structural fuel makes the
definition kernel-reducible; `fuel = length of the text` always suffices
because every pattern built by `mkPairs` starts with the non-empty open
delimiter (`parseConfig` rejects empty delimiters), so each step consumes
at least one character. -/
def stringsReplaceAux (pairs : List (List Char × List Char)) :
    Nat → List Char → List Char
  | 0, s => s
  | _ + 1, [] => []
  | fuel + 1, c :: rest =>
    match pairs.find? (fun p => !p.1.isEmpty && leadsWith p.1 (c :: rest)) with
    | some pr => pr.2 ++ stringsReplaceAux pairs fuel ((c :: rest).drop pr.1.length)
    | none => c :: stringsReplaceAux pairs fuel rest

/-- One full replacement pass, as performed by `strReplacer.Replace`. -/
def stringsReplace (pairs : List (List Char × List Char)) (s : List Char) :
    List Char :=
  stringsReplaceAux pairs s.length s

/-- The unresolved-placeholder check of `buildNewReplacer`: find the first
occurrence of the open delimiter in the substituted output; if the close
delimiter occurs after it, return the text between them (the reported
missing key). -/
def findMissing (od cd out : List Char) : Option (List Char) :=
  match strIndex od out with
  | none => none
  | some idx =>
    match strIndex cd (out.drop (idx + od.length)) with
    | none => none
    | some e => some ((out.drop (idx + od.length)).take e)

/-- The replacer closure returned by `buildNewReplacer` (main.go): run the
multi-pattern replacement, set `changed` by comparing output with input,
then fail with the enclosed text of the first remaining open/close pair in
the output, if any.  On failure no content is returned (Go returns
`nil, false, err`). -/
def buildNewReplacer (od cd : List Char) (values : List (List Char × List Char)) :
    List Char → Except (List Char) (List Char × Bool) :=
  fun txt =>
    let out := stringsReplace (mkPairs od cd values) txt
    match findMissing od cd out with
    | some missing => .error missing
    | none => .ok (out, out != txt)

/-- Counts, along the same scan as `stringsReplaceAux`, how many
substitutions are performed.  This is a specification-side observer (the
source does not count; it detects change by comparing strings). -/
def substCountAux (pairs : List (List Char × List Char)) :
    Nat → List Char → Nat
  | 0, _ => 0
  | _ + 1, [] => 0
  | fuel + 1, c :: rest =>
    match pairs.find? (fun p => !p.1.isEmpty && leadsWith p.1 (c :: rest)) with
    | some pr => substCountAux pairs fuel ((c :: rest).drop pr.1.length) + 1
    | none => substCountAux pairs fuel rest

/-- Number of substitutions performed by one `stringsReplace` pass. -/
def substCount (pairs : List (List Char × List Char)) (s : List Char) : Nat :=
  substCountAux pairs s.length s

/-- Follows the spec wording (section 4.2): scan the content left to right
for non-overlapping occurrences of `open ... close` and collect each
enclosed text as a placeholder key.  Used to state claims that speak about
the placeholder occurrences of the original content. -/
def specScanAux (od cd : List Char) : Nat → List Char → List (List Char)
  | 0, _ => []
  | fuel + 1, s =>
    match strIndex od s with
    | none => []
    | some idx =>
      match strIndex cd (s.drop (idx + od.length)) with
      | none => []
      | some e =>
        (s.drop (idx + od.length)).take e ::
          specScanAux od cd fuel (s.drop (idx + od.length + e + cd.length))

/-- The placeholder keys of a content, read per the spec wording. -/
def specPlaceholderKeys (od cd s : List Char) : List (List Char) :=
  specScanAux od cd s.length s

/-- State of one file on disk: its byte content and permission bits. -/
structure FileState where
  content : List Char
  mode : Nat
deriving DecidableEq

/-- The `replacer` function type of main.go. -/
def Replacer : Type := List Char → Except (List Char) (List Char × Bool)

/-- Models `processFile` (main.go): read the file, run the replacer; on
error report it and leave the file untouched; on success write the new
content back with the original permission bits exactly when
`changed == true`.  The middle component records whether `os.WriteFile`
was invoked. -/
def processFile (file : FileState) (r : Replacer) :
    FileState × Bool × Option (List Char) :=
  match r file.content with
  | .error e => (file, false, some e)
  | .ok res =>
    if res.2 then ({ content := res.1, mode := file.mode }, true, none)
    else (file, false, none)

/-- A per-file or walk-level failure collected into the aggregate run
result (the `errs` slice of `processFiles`). -/
inductive RunError where
  | fileFail (p : Nat) (e : List Char)
  | walkFail (e : List Char)
deriving DecidableEq

/-- The worker loop of `processFiles`: take a path from the queue, process
it, record its error if any, continue with the remaining paths.  The file
system is a map from path identifiers to file states; each path is handed
to exactly one worker, and the concurrent interleaving of workers is
abstracted as the order in which paths are processed. -/
def workLoop (r : Replacer) : (Nat → FileState) → List Nat →
    (Nat → FileState) × List RunError
  | fs, [] => (fs, [])
  | fs, p :: rest =>
    let res := processFile (fs p) r
    let next := workLoop r (Function.update fs p res.1) rest
    (next.1, (res.2.2.map (RunError.fileFail p)).toList ++ next.2)

/-- Models `processFiles` (main.go): process every candidate path,
append the walk error (if the directory walk failed) to the collected
per-file errors, and return `none` (Go `nil`) exactly when no error was
collected, otherwise the composite list (Go `errors.Join`). -/
def processFiles (fs0 : Nat → FileState) (r : Replacer) (order : List Nat)
    (walkError : Option (List Char)) :
    (Nat → FileState) × Option (List RunError) :=
  let run := workLoop r fs0 order
  let errs := run.2 ++ (walkError.map RunError.walkFail).toList
  (run.1, if errs.isEmpty then none else some errs)

/-- The compiled filter rule set of main.go (`fileFilter`): compiled
matchers are abstracted as boolean predicates on paths. -/
structure fileFilter where
  includes : List (List Char → Bool)
  excludes : List (List Char → Bool)

/-- Models `fileFilter.match` (main.go): any exclude match rejects;
an empty include list default-accepts; otherwise some include must match. -/
def fileFilterMatch (f : fileFilter) (path : List Char) : Bool :=
  if f.excludes.any (fun rx => rx path) then false
  else if f.includes.isEmpty then true
  else f.includes.any (fun rx => rx path)

/-- Models the compiled regular expression `.*\.yaml$` used by claim C4
(Go regexp is standard-library code outside this repository): the path
ends with ".yaml". -/
def incYaml (p : List Char) : Bool := ".yaml".toList.isSuffixOf p

/-- Models the compiled regular expression with an anchored ".git"
followed by a slash or end of string: the path starts with ".git/" or is
exactly ".git". -/
def excGit (p : List Char) : Bool :=
  leadsWith ".git/".toList p || p == ".git".toList

/-! Characterization lemmas for the scanning primitives. -/

theorem leadsWith_iff {p s : List Char} :
    leadsWith p s = true ↔ ∃ t, p ++ t = s := by
  induction p generalizing s with
  | nil => simp [leadsWith]
  | cons a as ih =>
    cases s with
    | nil => simp [leadsWith]
    | cons b bs =>
      simp only [leadsWith, Bool.and_eq_true, beq_iff_eq, ih, List.cons_append,
        List.cons.injEq]
      constructor
      · rintro ⟨rfl, t, rfl⟩; exact ⟨t, rfl, rfl⟩
      · rintro ⟨t, rfl, rfl⟩; exact ⟨rfl, t, rfl⟩

theorem strIndex_some {n h : List Char} {i : Nat} (hi : strIndex n h = some i) :
    ∃ pre post, pre ++ n ++ post = h ∧ pre.length = i := by
  induction h generalizing i with
  | nil =>
    simp only [strIndex] at hi
    split at hi
    · rename_i hn
      cases hi
      exact ⟨[], [], by simp [List.isEmpty_iff.mp hn], rfl⟩
    · exact absurd hi (by simp)
  | cons c rest ih =>
    by_cases hl : leadsWith n (c :: rest) = true
    · simp only [strIndex, hl, if_true] at hi
      obtain ⟨t, ht⟩ := leadsWith_iff.mp hl
      cases hi
      exact ⟨[], t, by simpa using ht, rfl⟩
    · simp only [strIndex, hl, if_false, Bool.false_eq_true] at hi
      obtain ⟨j, hj, hji⟩ := Option.map_eq_some'.mp hi
      obtain ⟨pre, post, hp, hlen⟩ := ih hj
      exact ⟨c :: pre, post, by simp [← hp], by simp [hlen, hji]⟩

theorem strIndex_exists {n pre post h : List Char} (hh : pre ++ n ++ post = h) :
    ∃ i, strIndex n h = some i ∧ i ≤ pre.length := by
  induction pre generalizing h with
  | nil =>
    cases h with
    | nil =>
      have hn : n = [] := by cases n <;> simp_all
      subst hn
      exact ⟨0, by simp [strIndex], Nat.le_refl 0⟩
    | cons c rest =>
      have : leadsWith n (c :: rest) = true :=
        leadsWith_iff.mpr ⟨post, by simpa using hh⟩
      exact ⟨0, by simp [strIndex, this], Nat.zero_le _⟩
  | cons d pre' ih =>
    cases h with
    | nil => simp at hh
    | cons c rest =>
      have hd : d = c ∧ pre' ++ n ++ post = rest := by simpa using hh
      by_cases hl : leadsWith n (c :: rest) = true
      · exact ⟨0, by simp [strIndex, hl], Nat.zero_le _⟩
      · obtain ⟨j, hj, hjle⟩ := ih hd.2
        refine ⟨j + 1, ?_, by simpa using Nat.succ_le_succ hjle⟩
        simp [strIndex, hl, hj]

theorem strIndex_min {n h : List Char} {i : Nat} (hi : strIndex n h = some i) :
    ∀ pre post, pre ++ n ++ post = h → i ≤ pre.length := by
  induction h generalizing i with
  | nil =>
    intro pre post hp
    simp only [strIndex] at hi
    split at hi
    · cases hi
      exact Nat.zero_le _
    · exact absurd hi (by simp)
  | cons c rest ih =>
    intro pre post hp
    by_cases hl : leadsWith n (c :: rest) = true
    · simp only [strIndex, hl, if_true] at hi
      cases hi
      exact Nat.zero_le _
    · simp only [strIndex, hl, if_false, Bool.false_eq_true] at hi
      obtain ⟨j, hj, hji⟩ := Option.map_eq_some'.mp hi
      cases pre with
      | nil => exact absurd (leadsWith_iff.mpr ⟨post, by simpa using hp⟩) hl
      | cons d pre' =>
        have hd : pre' ++ n ++ post = rest := (by simpa using hp : _ ∧ _).2
        have := ih hj pre' post hd
        subst hji
        simpa using Nat.succ_le_succ this

theorem findMissing_some {od cd out k : List Char}
    (h : findMissing od cd out = some k) :
    ∃ a b, a ++ od ++ k ++ cd ++ b = out := by
  unfold findMissing at h
  split at h
  · exact absurd h (by simp)
  · rename_i idx hidx
    split at h
    · exact absurd h (by simp)
    · rename_i e he
      have hk : (out.drop (idx + od.length)).take e = k := by simpa using h
      obtain ⟨pre, post, hpre, hlen⟩ := strIndex_some hidx
      have hdl : idx + od.length = (pre ++ od).length := by simp [hlen]
      have hdrop : out.drop (idx + od.length) = post := by
        rw [← hpre, hdl]
        exact List.drop_left _ _
      rw [hdrop] at he hk
      obtain ⟨pre2, post2, hpre2, hlen2⟩ := strIndex_some he
      have hk2 : post.take e = pre2 := by
        rw [← hpre2, List.append_assoc, ← hlen2]
        exact List.take_left _ _
      have hk3 : k = pre2 := by rw [← hk, hk2]
      refine ⟨pre, post2, ?_⟩
      rw [hk3, ← hpre, ← hpre2]
      simp [List.append_assoc]

theorem findMissing_isSome {od cd a k b out : List Char}
    (h : a ++ od ++ k ++ cd ++ b = out) :
    ∃ e, findMissing od cd out = some e := by
  have h1 : a ++ od ++ (k ++ cd ++ b) = out := by
    rw [← h]; simp [List.append_assoc]
  obtain ⟨idx, hidx, hle⟩ := strIndex_exists h1
  have h2 : (a ++ od ++ k) ++ (cd ++ b) = out := by
    rw [← h]; simp [List.append_assoc]
  have hlen : idx + od.length ≤ (a ++ od ++ k).length := by
    simp only [List.length_append]
    omega
  have hdrop : ((a ++ od ++ k).drop (idx + od.length)) ++ cd ++ b =
      out.drop (idx + od.length) := by
    rw [← h2, List.drop_append_of_le_length hlen]
    simp [List.append_assoc]
  obtain ⟨e, he, _⟩ := strIndex_exists hdrop
  exact ⟨(out.drop (idx + od.length)).take e, by simp [findMissing, hidx, he]⟩

theorem findMissing_none {od cd out : List Char}
    (h : findMissing od cd out = none) :
    ∀ a k b, a ++ od ++ k ++ cd ++ b ≠ out := by
  intro a k b hc
  obtain ⟨e, he⟩ := findMissing_isSome hc
  rw [h] at he
  exact absurd he (by simp)

/-! Lemmas about the replacement scan. -/

theorem stringsReplaceAux_id {pairs : List (List Char × List Char)} :
    ∀ fuel s, (∀ pr ∈ pairs, pr.1 ≠ [] → ∀ u v, u ++ pr.1 ++ v ≠ s) →
    stringsReplaceAux pairs fuel s = s := by
  intro fuel
  induction fuel with
  | zero => intro s _; rfl
  | succ fuel ih =>
    intro s hs
    cases s with
    | nil => rfl
    | cons c rest =>
      have hfind :
          pairs.find? (fun p => !p.1.isEmpty && leadsWith p.1 (c :: rest))
            = none := by
        apply List.find?_eq_none.mpr
        intro p hp hcontra
        rw [Bool.and_eq_true] at hcontra
        obtain ⟨hne, hlw⟩ := hcontra
        obtain ⟨t, ht⟩ := leadsWith_iff.mp hlw
        have hpne : p.1 ≠ [] := by
          intro hnil
          simp [hnil] at hne
        exact hs p hp hpne [] t (by simpa using ht)
      simp only [stringsReplaceAux, hfind]
      congr 1
      apply ih
      intro pr hpr hne u v hc
      exact hs pr hpr hne (c :: u) v (by simp [← hc])

theorem substCountAux_eq_zero {pairs : List (List Char × List Char)} :
    ∀ fuel s, substCountAux pairs fuel s = 0 →
    stringsReplaceAux pairs fuel s = s := by
  intro fuel
  induction fuel with
  | zero => intro s _; rfl
  | succ fuel ih =>
    intro s hz
    cases s with
    | nil => rfl
    | cons c rest =>
      cases hfind :
          pairs.find? (fun p => !p.1.isEmpty && leadsWith p.1 (c :: rest)) with
      | some pr =>
        rw [substCountAux, hfind] at hz
        exact absurd hz (by simp)
      | none =>
        rw [substCountAux, hfind] at hz
        rw [stringsReplaceAux, hfind]
        exact congrArg (c :: ·) (ih rest hz)

theorem substCountAux_pos {pairs : List (List Char × List Char)} :
    ∀ fuel s, 0 < substCountAux pairs fuel s →
    ∃ pr ∈ pairs, pr.1 ≠ [] ∧ ∃ u v, u ++ pr.1 ++ v = s := by
  intro fuel
  induction fuel with
  | zero => intro s hz; simp [substCountAux] at hz
  | succ fuel ih =>
    intro s hz
    cases s with
    | nil => simp [substCountAux] at hz
    | cons c rest =>
      cases hfind :
          pairs.find? (fun p => !p.1.isEmpty && leadsWith p.1 (c :: rest)) with
      | some pr =>
        have hmem : pr ∈ pairs := List.mem_of_find?_eq_some hfind
        have hprop := List.find?_some hfind
        rw [Bool.and_eq_true] at hprop
        obtain ⟨hne, hlw⟩ := hprop
        obtain ⟨t, ht⟩ := leadsWith_iff.mp hlw
        have hpne : pr.1 ≠ [] := by
          intro hnil
          simp [hnil] at hne
        exact ⟨pr, hmem, hpne, [], t, by simpa using ht⟩
      | none =>
        rw [substCountAux, hfind] at hz
        obtain ⟨pr, hmem, hpne, u, v, hv⟩ := ih rest hz
        exact ⟨pr, hmem, hpne, c :: u, v, by simp [← hv]⟩

/-! Case-analysis lemmas for the replacer closure. -/

theorem buildNewReplacer_ok {od cd : List Char}
    {vs : List (List Char × List Char)} {txt out : List Char} {ch : Bool}
    (h : buildNewReplacer od cd vs txt = .ok (out, ch)) :
    out = stringsReplace (mkPairs od cd vs) txt ∧ ch = (out != txt) ∧
      findMissing od cd out = none := by
  simp only [buildNewReplacer] at h
  split at h
  · exact absurd h (by simp)
  · rename_i hfm
    injection h with h1
    cases h1
    exact ⟨rfl, rfl, hfm⟩

theorem buildNewReplacer_error {od cd : List Char}
    {vs : List (List Char × List Char)} {txt e : List Char}
    (h : buildNewReplacer od cd vs txt = .error e) :
    findMissing od cd (stringsReplace (mkPairs od cd vs) txt) = some e := by
  simp only [buildNewReplacer] at h
  split at h
  · rename_i m hfm
    injection h with h1
    rw [hfm, h1]
  · exact absurd h (by simp)

theorem buildNewReplacer_not_error {od cd : List Char}
    {vs : List (List Char × List Char)} {txt : List Char}
    (h : findMissing od cd (stringsReplace (mkPairs od cd vs) txt) = none) :
    buildNewReplacer od cd vs txt =
      .ok (stringsReplace (mkPairs od cd vs) txt,
           stringsReplace (mkPairs od cd vs) txt != txt) := by
  simp [buildNewReplacer, h]

/-! Lemmas about the scheduler model. -/

theorem workLoop_state_not_mem {r : Replacer} :
    ∀ (order : List Nat) (fs : Nat → FileState) (p : Nat), p ∉ order →
    (workLoop r fs order).1 p = fs p := by
  intro order
  induction order with
  | nil => intro fs p _; rfl
  | cons q rest ih =>
    intro fs p hp
    have hpq : p ≠ q := by
      intro h
      exact hp (h ▸ List.mem_cons_self q rest)
    have hrest : p ∉ rest := fun h => hp (List.mem_cons_of_mem q h)
    simp only [workLoop]
    rw [ih _ p hrest]
    exact Function.update_noteq hpq _ fs

theorem workLoop_state_mem {r : Replacer} :
    ∀ (order : List Nat) (fs : Nat → FileState) (p : Nat),
    order.Nodup → p ∈ order →
    (workLoop r fs order).1 p = (processFile (fs p) r).1 := by
  intro order
  induction order with
  | nil => intro fs p _ hp; simp at hp
  | cons q rest ih =>
    intro fs p hnd hp
    obtain ⟨hq, hndr⟩ := List.nodup_cons.mp hnd
    simp only [workLoop]
    rcases List.mem_cons.mp hp with rfl | hmem
    · rw [workLoop_state_not_mem rest _ p hq]
      simp
    · have hpq : p ≠ q := fun h => hq (h ▸ hmem)
      rw [ih _ p hndr hmem, Function.update_noteq hpq _ fs]

theorem workLoop_errs {r : Replacer} :
    ∀ (order : List Nat) (fs fs' : Nat → FileState), order.Nodup →
    (∀ q ∈ order, fs q = fs' q) →
    (workLoop r fs order).2 = order.filterMap
      (fun q => ((processFile (fs' q) r).2.2).map (RunError.fileFail q)) := by
  intro order
  induction order with
  | nil => intro fs fs' _ _; rfl
  | cons q rest ih =>
    intro fs fs' hnd hagree
    obtain ⟨hq, hndr⟩ := List.nodup_cons.mp hnd
    have hfq : fs q = fs' q := hagree q (List.mem_cons_self q rest)
    have hrest := ih (Function.update fs q (processFile (fs' q) r).1) fs' hndr
      (fun p hp => by
        have hpq : p ≠ q := fun h => hq (h ▸ hp)
        rw [Function.update_noteq hpq _ fs]
        exact hagree p (List.mem_cons_of_mem q hp))
    simp only [workLoop, hfq, hrest, List.filterMap_cons]
    cases hpf : (processFile (fs' q) r).2.2 <;> simp [hpf]

/-! Analysis of the content used by claim C2. -/

theorem c2_key_of_tail {k v : List Char}
    (h : k ++ (':' :: ':' :: '>' :: v) = ['X', ':', ':', '>', ' ', 'b']) :
    k = ['X'] := by
  have hlen : k.length ≤ 3 := by
    have := congrArg List.length h
    simp at this
    omega
  rcases k with _ | ⟨k1, _ | ⟨k2, _ | ⟨k3, k'⟩⟩⟩
  · simp at h
  · simp_all
  · simp at h
  · have hk' : k' = [] := by
      simp at hlen
      exact hlen
    subst hk'
    simp at h

theorem c2_key_determined {k u v : List Char}
    (h : u ++ ("<::".toList ++ k ++ "::>".toList) ++ v = "a <::X::> b".toList) :
    k = ['X'] := by
  have hlen : u.length ≤ 5 := by
    have := congrArg List.length h
    simp at this
    omega
  rcases u with _ | ⟨u1, _ | ⟨u2, _ | ⟨u3, _ | ⟨u4, _ | ⟨u5, u'⟩⟩⟩⟩⟩
  · simp at h
  · simp at h
  · simp at h
    exact c2_key_of_tail h.2.2
  · simp at h
  · simp at h
  · rcases u' with _ | ⟨u6, u''⟩
    · simp at h
    · exfalso
      simp at hlen

theorem c2_replace_id {vs : List (List Char × List Char)}
    (hX : ∀ kv ∈ vs, kv.1 ≠ ['X']) :
    stringsReplace (mkPairs "<::".toList "::>".toList vs) "a <::X::> b".toList
      = "a <::X::> b".toList := by
  unfold stringsReplace
  apply stringsReplaceAux_id
  intro pr hpr hne u v hc
  obtain ⟨kv, hkv, rfl⟩ := List.mem_map.mp hpr
  exact hX kv hkv (c2_key_determined hc)

theorem c2_error {vs : List (List Char × List Char)}
    (hX : ∀ kv ∈ vs, kv.1 ≠ ['X']) :
    buildNewReplacer "<::".toList "::>".toList vs "a <::X::> b".toList
      = .error ['X'] := by
  simp only [buildNewReplacer, c2_replace_id hX]
  rfl

theorem processFile_error {file : FileState} {r : Replacer} {e : List Char}
    (h : r file.content = .error e) :
    processFile file r = (file, false, some e) := by
  unfold processFile
  rw [h]

theorem processFile_ok {file : FileState} {r : Replacer} {out : List Char}
    {ch : Bool} (h : r file.content = .ok (out, ch)) :
    processFile file r =
      if ch then ({ content := out, mode := file.mode }, true, none)
      else (file, false, none) := by
  unfold processFile
  rw [h]

theorem c2_processFile (m : Nat) {vs : List (List Char × List Char)}
    (hX : ∀ kv ∈ vs, kv.1 ≠ ['X']) :
    processFile ⟨"a <::X::> b".toList, m⟩
        (buildNewReplacer "<::".toList "::>".toList vs)
      = (⟨"a <::X::> b".toList, m⟩, false, some ['X']) :=
  processFile_error (c2_error hX)

theorem processFiles_fst (fs0 : Nat → FileState) (r : Replacer)
    (order : List Nat) (w : Option (List Char)) :
    (processFiles fs0 r order w).1 = (workLoop r fs0 order).1 := rfl

theorem processFiles_snd (fs0 : Nat → FileState) (r : Replacer)
    (order : List Nat) (w : Option (List Char)) :
    (processFiles fs0 r order w).2 =
      if ((workLoop r fs0 order).2 ++ (w.map RunError.walkFail).toList).isEmpty
      then none
      else some ((workLoop r fs0 order).2
        ++ (w.map RunError.walkFail).toList) := rfl

/-! Claim theorems. -/

/-- C1 (amended): the replace operation fails if and only if the
substituted output still contains an occurrence of the open delimiter
followed later by the close delimiter; when it fails, the error carries
the text enclosed between the first such open occurrence and the next
close occurrence of that output (which need not be a key of the original
content and may even be present in the mapping), and no new content is
produced; on success the returned content is exactly the substituted
output. -/
theorem c1_error_scans_output (od cd : List Char)
    (vs : List (List Char × List Char)) (txt : List Char) :
    ((∃ e, buildNewReplacer od cd vs txt = .error e) ↔
      ∃ a k b, a ++ od ++ k ++ cd ++ b
        = stringsReplace (mkPairs od cd vs) txt) ∧
    (∀ e, buildNewReplacer od cd vs txt = .error e →
      ∃ a b, a ++ od ++ e ++ cd ++ b = stringsReplace (mkPairs od cd vs) txt) ∧
    (∀ out ch, buildNewReplacer od cd vs txt = .ok (out, ch) →
      out = stringsReplace (mkPairs od cd vs) txt) := by
  refine ⟨⟨?_, ?_⟩, ?_, ?_⟩
  · rintro ⟨e, he⟩
    obtain ⟨a, b, hab⟩ := findMissing_some (buildNewReplacer_error he)
    exact ⟨a, e, b, hab⟩
  · rintro ⟨a, k, b, hab⟩
    cases hfm : findMissing od cd (stringsReplace (mkPairs od cd vs) txt) with
    | none => exact absurd hab (findMissing_none hfm a k b)
    | some e =>
      refine ⟨e, ?_⟩
      simp [buildNewReplacer, hfm]
  · intro e he
    obtain ⟨a, b, hab⟩ := findMissing_some (buildNewReplacer_error he)
    exact ⟨a, b, hab⟩
  · intro out ch h
    exact (buildNewReplacer_ok h).1

/-- Witness for C1: with an empty mapping and content "a <::X::> b" the
replace operation fails with key X, so the output decomposes around an
open/close pair. -/
theorem c1_error_scans_output_witness :
    ∃ a b, a ++ "<::".toList ++ ['X'] ++ "::>".toList ++ b
      = stringsReplace (mkPairs "<::".toList "::>".toList [])
          "a <::X::> b".toList :=
  (c1_error_scans_output "<::".toList "::>".toList []
    "a <::X::> b".toList).2.1 ['X'] (by rfl)

/-- Counterexample to C1 as stated: with the mapping sending X to the
text "<::X::>", every placeholder occurrence of the content "<::X::>"
has its key in the mapping (the spec-described scan collects exactly the
key X, which the mapping carries), yet the replace operation fails. -/
theorem c1_counterexample :
    (specPlaceholderKeys "<::".toList "::>".toList "<::X::>".toList).all
      (fun k => ([(['X'], "<::X::>".toList)] :
        List (List Char × List Char)).any (fun kv => kv.1 == k)) = true ∧
    buildNewReplacer "<::".toList "::>".toList [(['X'], "<::X::>".toList)]
      "<::X::>".toList = .error ['X'] :=
  ⟨by decide, by rfl⟩

/-- C5: whenever the replace operation succeeds, the returned changed
flag is true if and only if at least one substitution was performed
during the replacement scan. -/
theorem c5_changed_iff_substitution (od cd : List Char)
    (vs : List (List Char × List Char)) (txt out : List Char) (ch : Bool)
    (h : buildNewReplacer od cd vs txt = .ok (out, ch)) :
    ch = true ↔ 0 < substCount (mkPairs od cd vs) txt := by
  obtain ⟨hout, hch, hfm⟩ := buildNewReplacer_ok h
  subst hout
  constructor
  · intro hc
    rw [hc] at hch
    have hne : stringsReplace (mkPairs od cd vs) txt ≠ txt :=
      bne_iff_ne.mp hch.symm
    by_contra hz
    have h0 : substCount (mkPairs od cd vs) txt = 0 := by omega
    exact hne (substCountAux_eq_zero txt.length txt h0)
  · intro hpos
    rw [hch]
    rw [bne_iff_ne]
    intro heq
    obtain ⟨pr, hmem, hne, u, v, huv⟩ := substCountAux_pos txt.length txt hpos
    obtain ⟨kv, hkv, hpat⟩ := List.mem_map.mp hmem
    have hdec : u ++ od ++ kv.1 ++ cd ++ v
        = stringsReplace (mkPairs od cd vs) txt := by
      rw [heq, ← huv, ← hpat]
      simp [List.append_assoc]
    obtain ⟨e, he⟩ := findMissing_isSome hdec
    rw [hfm] at he
    exact absurd he (by simp)

/-- Witness for C5: mapping {K ↦ v} over content "a <::K::> b" succeeds
with changed true and one substitution performed. -/
theorem c5_changed_iff_substitution_witness :
    true = true ↔
      0 < substCount (mkPairs "<::".toList "::>".toList
        [(['K'], ['v'])]) "a <::K::> b".toList :=
  c5_changed_iff_substitution "<::".toList "::>".toList [(['K'], ['v'])]
    "a <::K::> b".toList "a v b".toList true (by rfl)

/-- C6: the replace operation is idempotent; if it succeeds on a content
then running it again on the produced output succeeds, returns the same
output, and reports changed false. -/
theorem c6_idempotent (od cd : List Char)
    (vs : List (List Char × List Char)) (txt out : List Char) (ch : Bool)
    (h : buildNewReplacer od cd vs txt = .ok (out, ch)) :
    buildNewReplacer od cd vs out = .ok (out, false) := by
  obtain ⟨hout, hch, hfm⟩ := buildNewReplacer_ok h
  have hid : stringsReplace (mkPairs od cd vs) out = out := by
    unfold stringsReplace
    apply stringsReplaceAux_id
    intro pr hpr hne u v hc
    obtain ⟨kv, hkv, hpat⟩ := List.mem_map.mp hpr
    have hdec : u ++ od ++ kv.1 ++ cd ++ v = out := by
      rw [← hc, ← hpat]
      simp [List.append_assoc]
    obtain ⟨e, he⟩ := findMissing_isSome hdec
    rw [hfm] at he
    exact absurd he (by simp)
  have hres := @buildNewReplacer_not_error od cd vs out (by rw [hid]; exact hfm)
  rw [hid] at hres
  simpa using hres

/-- Witness for C6: a successful run over "a <::K::> b" with mapping
{K ↦ v} reruns to the same output with changed false. -/
theorem c6_idempotent_witness :
    buildNewReplacer "<::".toList "::>".toList [(['K'], ['v'])]
      "a v b".toList = .ok ("a v b".toList, false) :=
  c6_idempotent "<::".toList "::>".toList [(['K'], ['v'])]
    "a <::K::> b".toList "a v b".toList true (by rfl)

/-- C7 (amended): the pass-through/error decision is taken on the
substituted output, not on the original content.  If the first occurrence
of the open delimiter in the substituted output has no later close
occurrence, replace succeeds and returns that output verbatim, trailing
bytes included; if a close occurrence does follow it, replace fails with
the enclosed text, whether or not that text is a key of the mapping. -/
theorem c7_output_openclose_decides (od cd : List Char)
    (vs : List (List Char × List Char)) (txt a b : List Char)
    (hout : stringsReplace (mkPairs od cd vs) txt = a ++ od ++ b) :
    ((∀ a2 b2, stringsReplace (mkPairs od cd vs) txt = a2 ++ od ++ b2 →
        a.length ≤ a2.length) →
      (∀ s t, b ≠ s ++ cd ++ t) →
      buildNewReplacer od cd vs txt
        = .ok (a ++ od ++ b, (a ++ od ++ b) != txt)) ∧
    ((∃ s t, b = s ++ cd ++ t) →
      ∃ e, buildNewReplacer od cd vs txt = .error e) := by
  constructor
  · intro hmin hnocd
    obtain ⟨idx, hidx, hle⟩ :=
      @strIndex_exists od a b (a ++ od ++ b) rfl
    obtain ⟨pre, post, hpre, hplen⟩ := strIndex_some hidx
    have hge : a.length ≤ pre.length :=
      hmin pre post (by rw [hout, ← hpre])
    have hlen : pre.length = a.length := by omega
    have hsplit : pre ++ od = a ++ od ∧ post = b :=
      List.append_inj hpre (by simp [hlen])
    have hidx2 : strIndex od (a ++ od ++ b) = some a.length := by
      rw [hidx]
      have hia : idx = a.length := by omega
      rw [hia]
    have hdrop : (a ++ od ++ b).drop (a.length + od.length) = b := by
      rw [show a.length + od.length = (a ++ od).length by simp]
      exact List.drop_left _ _
    have hcd : strIndex cd b = none := by
      cases hc : strIndex cd b with
      | none => rfl
      | some e =>
        obtain ⟨s, t, hst, _⟩ := strIndex_some hc
        exact absurd hst.symm (fun hh => hnocd s t hh)
    have hfm : findMissing od cd (a ++ od ++ b) = none := by
      simp only [findMissing, hidx2, hdrop, hcd]
    have := @buildNewReplacer_not_error od cd vs txt (by rw [hout]; exact hfm)
    rw [hout] at this
    exact this
  · rintro ⟨s, t, rfl⟩
    have hdec : a ++ od ++ s ++ cd ++ t
        = stringsReplace (mkPairs od cd vs) txt := by
      rw [hout]
      simp [List.append_assoc]
    obtain ⟨e, he⟩ := findMissing_isSome hdec
    exact ⟨e, by simp [buildNewReplacer, he]⟩

/-- Witness for C7: with an empty mapping, the content "a <::X" has an
open delimiter with no later close; replace succeeds and passes the
trailing bytes through unchanged. -/
theorem c7_output_openclose_decides_witness :
    buildNewReplacer "<::".toList "::>".toList [] "a <::X".toList
      = .ok ("a ".toList ++ "<::".toList ++ ['X'],
             ("a ".toList ++ "<::".toList ++ ['X']) != "a <::X".toList) := by
  apply (c7_output_openclose_decides "<::".toList "::>".toList []
    "a <::X".toList "a ".toList ['X'] (by rfl)).1
  · intro a2 b2 h2
    rw [show stringsReplace (mkPairs "<::".toList "::>".toList [])
      "a <::X".toList = "a <::X".toList from rfl] at h2
    have hlen : a2.length + (3 + b2.length) = 6 := by
      have := congrArg List.length h2
      simp at this
      omega
    rcases a2 with _ | ⟨x1, _ | ⟨x2, a2'⟩⟩
    · simp at h2
    · simp at h2
    · simp
  · intro s t hst
    have := congrArg List.length hst
    simp at this
    omega

/-- Counterexample to C7 as stated: in the content "<::X::>Y::>" the
first open delimiter is followed by a close delimiter enclosing the text
X, which is not a key of the mapping {X::>Y ↦ v}; the claim requires an
error, yet replace succeeds (the whole span is consumed as the
placeholder of the longer key), a silent pass-over of the enclosed text. -/
theorem c7_counterexample :
    findMissing "<::".toList "::>".toList "<::X::>Y::>".toList = some ['X'] ∧
    (([("X::>Y".toList, ['v'])] : List (List Char × List Char)).all
      (fun kv => !(kv.1 == ['X']))) = true ∧
    buildNewReplacer "<::".toList "::>".toList [("X::>Y".toList, ['v'])]
      "<::X::>Y::>".toList = .ok (['v'], true) :=
  ⟨by rfl, by decide, by rfl⟩

/-- C10: a replacement value that introduces a delimited span makes
replace fail even though every placeholder of the original content
resolves: with mapping {A ↦ "<::B::>", B ↦ b} and content "<::A::>",
the substituted output is "<::B::>", the spec-scan keys of the content
(exactly A) are all in the mapping, yet replace fails reporting the key
B taken from the post-substitution output — a key that is itself present
in the mapping, showing the unresolved check scans the substituted
output and never consults the mapping. -/
theorem c10_value_injected_delimiters_fail :
    stringsReplace (mkPairs "<::".toList "::>".toList
        [(['A'], "<::B::>".toList), (['B'], ['b'])]) "<::A::>".toList
      = "<::B::>".toList ∧
    (specPlaceholderKeys "<::".toList "::>".toList "<::A::>".toList).all
      (fun k => ([(['A'], "<::B::>".toList), (['B'], ['b'])] :
        List (List Char × List Char)).any (fun kv => kv.1 == k)) = true ∧
    buildNewReplacer "<::".toList "::>".toList
        [(['A'], "<::B::>".toList), (['B'], ['b'])] "<::A::>".toList
      = .error ['B'] ∧
    (['B'], ['b']) ∈ ([(['A'], "<::B::>".toList), (['B'], ['b'])] :
      List (List Char × List Char)) :=
  ⟨by rfl, by decide, by rfl, by decide⟩

/-- C2: for the file content "a <::X::> b" with delimiters <:: and ::>
and any mapping without key X, processing leaves the file state (bytes
and permission bits) exactly as it was, and the aggregate run result is
the composite containing the unresolved-placeholder error naming X. -/
theorem c2_missing_key_leaves_file_untouched (m : Nat)
    (vs : List (List Char × List Char))
    (hX : ∀ kv ∈ vs, kv.1 ≠ ['X']) :
    (processFiles (fun _ => ⟨"a <::X::> b".toList, m⟩)
        (buildNewReplacer "<::".toList "::>".toList vs) [0] none).1 0
      = ⟨"a <::X::> b".toList, m⟩ ∧
    (processFiles (fun _ => ⟨"a <::X::> b".toList, m⟩)
        (buildNewReplacer "<::".toList "::>".toList vs) [0] none).2
      = some [RunError.fileFail 0 ['X']] := by
  constructor
  · rw [processFiles_fst]
    rw [workLoop_state_mem [0] _ 0 (by simp) (by simp)]
    rw [c2_processFile m hX]
  · rw [processFiles_snd]
    rw [workLoop_errs [0] _ (fun _ => ⟨"a <::X::> b".toList, m⟩) (by simp)
      (fun q hq => rfl)]
    simp only [List.filterMap_cons, List.filterMap_nil, c2_processFile m hX]
    rfl

/-- Witness for C2: the mapping {P ↦ v} has no key X; the file keeps its
bytes and mode 420 and the run reports the error naming X. -/
theorem c2_missing_key_leaves_file_untouched_witness :
    (processFiles (fun _ => ⟨"a <::X::> b".toList, 420⟩)
        (buildNewReplacer "<::".toList "::>".toList [(['P'], ['v'])]) [0]
        none).1 0
      = ⟨"a <::X::> b".toList, 420⟩ ∧
    (processFiles (fun _ => ⟨"a <::X::> b".toList, 420⟩)
        (buildNewReplacer "<::".toList "::>".toList [(['P'], ['v'])]) [0]
        none).2
      = some [RunError.fileFail 0 ['X']] :=
  c2_missing_key_leaves_file_untouched 420 [(['P'], ['v'])] (by decide)

/-- C3: a file is rewritten exactly when the replacer returns changed
true; the rewrite stores the replacer output under the original
permission bits, and in the no-change and error cases the file state is
untouched. -/
theorem c3_rewrite_iff_changed (od cd : List Char)
    (vs : List (List Char × List Char)) (file : FileState) :
    ((processFile file (buildNewReplacer od cd vs)).2.1 = true ↔
      ∃ out, buildNewReplacer od cd vs file.content = .ok (out, true)) ∧
    (∀ out, buildNewReplacer od cd vs file.content = .ok (out, true) →
      processFile file (buildNewReplacer od cd vs)
        = ({ content := out, mode := file.mode }, true, none)) ∧
    (∀ out, buildNewReplacer od cd vs file.content = .ok (out, false) →
      processFile file (buildNewReplacer od cd vs) = (file, false, none)) ∧
    (∀ e, buildNewReplacer od cd vs file.content = .error e →
      processFile file (buildNewReplacer od cd vs) = (file, false, some e)) := by
  cases hres : buildNewReplacer od cd vs file.content with
  | error e =>
    rw [processFile_error hres]
    refine ⟨by simp, ?_, ?_, ?_⟩
    · intro out hok
      exact absurd hok (by simp)
    · intro out hok
      exact absurd hok (by simp)
    · intro e2 he2
      injection he2 with h1
      rw [h1]
  | ok res =>
    obtain ⟨out0, ch0⟩ := res
    rw [processFile_ok hres]
    cases ch0 with
    | true =>
      refine ⟨by simp, ?_, ?_, ?_⟩
      · intro out hok
        injection hok with h1
        injection h1 with h2 h3
        rw [h2]
        simp
      · intro out hok
        injection hok with h1
        injection h1 with h2 h3
        exact absurd h3 (by simp)
      · intro e he
        exact absurd he (by simp)
    | false =>
      refine ⟨by simp, ?_, ?_, ?_⟩
      · intro out hok
        injection hok with h1
        injection h1 with h2 h3
        exact absurd h3 (by simp)
      · intro out hok
        simp
      · intro e he
        exact absurd he (by simp)

/-- Witness for C3: rewriting "a <::K::> b" with mapping {K ↦ v} stores
"a v b" with the original mode. -/
theorem c3_rewrite_iff_changed_witness :
    processFile ⟨"a <::K::> b".toList, 420⟩
        (buildNewReplacer "<::".toList "::>".toList [(['K'], ['v'])])
      = (⟨"a v b".toList, 420⟩, true, none) :=
  (c3_rewrite_iff_changed "<::".toList "::>".toList [(['K'], ['v'])]
    ⟨"a <::K::> b".toList, 420⟩).2.1 "a v b".toList (by rfl)

/-- C4: a path is accepted iff it matches no exclude matcher and the
include list is empty or some include matcher accepts it; in particular,
with the include matcher for paths ending in ".yaml" and the exclude
matcher anchored on ".git", the path ".git/config.yaml" is rejected even
though the include matcher accepts it. -/
theorem c4_exclude_precedes_include (f : fileFilter) (path : List Char) :
    (fileFilterMatch f path = true ↔
      ((∀ rx ∈ f.excludes, rx path = false) ∧
        (f.includes = [] ∨ ∃ rx ∈ f.includes, rx path = true))) ∧
    (fileFilterMatch ⟨[incYaml], [excGit]⟩ ".git/config.yaml".toList = false ∧
      incYaml ".git/config.yaml".toList = true) := by
  refine ⟨?_, by decide, by decide⟩
  unfold fileFilterMatch
  by_cases hex : f.excludes.any (fun rx => rx path) = true
  · rw [if_pos hex]
    constructor
    · intro h
      exact absurd h (by simp)
    · rintro ⟨hall, -⟩
      obtain ⟨rx, hrx, hpx⟩ := List.any_eq_true.mp hex
      rw [hall rx hrx] at hpx
      exact absurd hpx (by simp)
  · rw [if_neg hex]
    have hall : ∀ rx ∈ f.excludes, rx path = false := by
      intro rx hrx
      cases hpx : rx path with
      | false => rfl
      | true => exact absurd (List.any_eq_true.mpr ⟨rx, hrx, hpx⟩) hex
    by_cases hinc : f.includes.isEmpty = true
    · rw [if_pos hinc]
      have hincl : f.includes = [] := List.isEmpty_iff.mp hinc
      constructor
      · intro _
        exact ⟨hall, Or.inl hincl⟩
      · intro _
        rfl
    · rw [if_neg hinc]
      rw [List.any_eq_true]
      constructor
      · rintro ⟨rx, hrx, hpx⟩
        exact ⟨hall, Or.inr ⟨rx, hrx, hpx⟩⟩
      · rintro ⟨-, hempty | ⟨rx, hrx, hpx⟩⟩
        · rw [hempty] at hinc
          exact absurd rfl hinc
        · exact ⟨rx, hrx, hpx⟩

/-- Witness for C4: a filter with no matchers accepts any path. -/
theorem c4_exclude_precedes_include_witness :
    fileFilterMatch ⟨[], []⟩ ['a'] = true :=
  (c4_exclude_precedes_include ⟨[], []⟩ ['a']).1.mpr (by simp)

/-- C8: the run returns nil exactly when no per-file error and no walk
error occurred; otherwise the composite result contains every per-file
error and the walk error if any; and every candidate file is processed
regardless of other failures (its final state is its own processing
outcome). -/
theorem c8_error_aggregation (od cd : List Char)
    (vs : List (List Char × List Char)) (fs0 : Nat → FileState)
    (order : List Nat) (w : Option (List Char)) (hnd : order.Nodup) :
    ((processFiles fs0 (buildNewReplacer od cd vs) order w).2 = none ↔
      ((∀ p ∈ order,
          (processFile (fs0 p) (buildNewReplacer od cd vs)).2.2 = none) ∧
        w = none)) ∧
    (∀ l, (processFiles fs0 (buildNewReplacer od cd vs) order w).2 = some l →
      ((∀ p ∈ order, ∀ e,
          (processFile (fs0 p) (buildNewReplacer od cd vs)).2.2 = some e →
          RunError.fileFail p e ∈ l) ∧
        (∀ e, w = some e → RunError.walkFail e ∈ l))) ∧
    (∀ p ∈ order,
      (processFiles fs0 (buildNewReplacer od cd vs) order w).1 p
        = (processFile (fs0 p) (buildNewReplacer od cd vs)).1) := by
  have herr := workLoop_errs (r := buildNewReplacer od cd vs) order fs0 fs0
    hnd (fun q hq => rfl)
  have hiff : ∀ (E : List RunError),
      (if E.isEmpty then (none : Option (List RunError)) else some E) = none
        ↔ E = [] := by
    intro E
    cases E <;> simp
  refine ⟨?_, ?_, ?_⟩
  · rw [processFiles_snd, herr, hiff, List.append_eq_nil,
      List.filterMap_eq_nil_iff]
    constructor
    · rintro ⟨h1, h2⟩
      refine ⟨fun p hp => Option.map_eq_none'.mp (h1 p hp), ?_⟩
      cases w with
      | none => rfl
      | some e => simp at h2
    · rintro ⟨h1, h2⟩
      subst h2
      exact ⟨fun p hp => Option.map_eq_none'.mpr (h1 p hp), rfl⟩
  · intro l hl
    rw [processFiles_snd, herr] at hl
    have hE : l = order.filterMap
        (fun q => ((processFile (fs0 q) (buildNewReplacer od cd vs)).2.2).map
          (RunError.fileFail q)) ++ (w.map RunError.walkFail).toList := by
      split at hl
      · exact absurd hl (by simp)
      · injection hl with h1
        exact h1.symm
    refine ⟨?_, ?_⟩
    · intro p hp e he
      rw [hE]
      apply List.mem_append_left
      apply List.mem_filterMap.mpr
      exact ⟨p, hp, by rw [he]; rfl⟩
    · intro e hw
      rw [hE]
      apply List.mem_append_right
      subst hw
      simp
  · intro p hp
    rw [processFiles_fst]
    exact workLoop_state_mem order fs0 p hnd hp

/-- Witness for C8: a one-file error-free run returns nil. -/
theorem c8_error_aggregation_witness :
    (processFiles (fun _ => ⟨['a'], 420⟩)
        (buildNewReplacer "<::".toList "::>".toList []) [0] none).2 = none :=
  ((c8_error_aggregation "<::".toList "::>".toList [] (fun _ => ⟨['a'], 420⟩)
    [0] none (by decide)).1).mpr ⟨by decide, rfl⟩

/-- C9: two runs over the same candidate files with the same replacer,
differing only in the order in which the worker pool handles the files
(as induced by any worker count), produce the same final file states and
error collections that are permutations of each other. -/
theorem c9_order_invariance (od cd : List Char)
    (vs : List (List Char × List Char)) (fs0 : Nat → FileState)
    (ord1 ord2 : List Nat) (w : Option (List Char))
    (hperm : ord1.Perm ord2) (hnd : ord1.Nodup) :
    (processFiles fs0 (buildNewReplacer od cd vs) ord1 w).1
      = (processFiles fs0 (buildNewReplacer od cd vs) ord2 w).1 ∧
    (((processFiles fs0 (buildNewReplacer od cd vs) ord1 w).2 = none ∧
      (processFiles fs0 (buildNewReplacer od cd vs) ord2 w).2 = none) ∨
      (∃ l1 l2,
        (processFiles fs0 (buildNewReplacer od cd vs) ord1 w).2 = some l1 ∧
        (processFiles fs0 (buildNewReplacer od cd vs) ord2 w).2 = some l2 ∧
        l1.Perm l2)) := by
  have hnd2 : ord2.Nodup := hperm.nodup hnd
  constructor
  · rw [processFiles_fst, processFiles_fst]
    funext p
    by_cases hp : p ∈ ord1
    · rw [workLoop_state_mem ord1 fs0 p hnd hp,
        workLoop_state_mem ord2 fs0 p hnd2 (hperm.mem_iff.mp hp)]
    · rw [workLoop_state_not_mem ord1 fs0 p hp,
        workLoop_state_not_mem ord2 fs0 p (fun hc => hp (hperm.mem_iff.mpr hc))]
  · rw [processFiles_snd, processFiles_snd,
      workLoop_errs (r := buildNewReplacer od cd vs) ord1 fs0 fs0 hnd
        (fun q hq => rfl),
      workLoop_errs (r := buildNewReplacer od cd vs) ord2 fs0 fs0 hnd2
        (fun q hq => rfl)]
    have hpf := hperm.filterMap
      (fun q => ((processFile (fs0 q) (buildNewReplacer od cd vs)).2.2).map
        (RunError.fileFail q))
    have hpermE := hpf.append_right ((w.map RunError.walkFail).toList)
    by_cases hemp : (ord1.filterMap
        (fun q => ((processFile (fs0 q) (buildNewReplacer od cd vs)).2.2).map
          (RunError.fileFail q)) ++ (w.map RunError.walkFail).toList).isEmpty
        = true
    · have h0 := List.isEmpty_iff.mp hemp
      have hemp2 : (ord2.filterMap
          (fun q => ((processFile (fs0 q) (buildNewReplacer od cd vs)).2.2).map
            (RunError.fileFail q)) ++ (w.map RunError.walkFail).toList).isEmpty
          = true := by
        rw [List.isEmpty_iff]
        have hsym := hpermE.symm
        rw [h0] at hsym
        exact hsym.eq_nil
      rw [if_pos hemp, if_pos hemp2]
      exact Or.inl ⟨rfl, rfl⟩
    · have hemp2 : ¬ (ord2.filterMap
          (fun q => ((processFile (fs0 q) (buildNewReplacer od cd vs)).2.2).map
            (RunError.fileFail q)) ++ (w.map RunError.walkFail).toList).isEmpty
          = true := by
        intro hc
        apply hemp
        rw [List.isEmpty_iff] at hc ⊢
        have hh := hpermE
        rw [hc] at hh
        exact hh.eq_nil
      rw [if_neg hemp, if_neg hemp2]
      exact Or.inr ⟨_, _, rfl, rfl, hpermE⟩

/-- Witness for C9: the orders [0, 1] and [1, 0] over two files give the
same final states and permuted error collections. -/
theorem c9_order_invariance_witness :
    (processFiles (fun _ => ⟨"a <::X::> b".toList, 420⟩)
        (buildNewReplacer "<::".toList "::>".toList []) [0, 1] none).1
      = (processFiles (fun _ => ⟨"a <::X::> b".toList, 420⟩)
        (buildNewReplacer "<::".toList "::>".toList []) [1, 0] none).1 ∧
    (((processFiles (fun _ => ⟨"a <::X::> b".toList, 420⟩)
        (buildNewReplacer "<::".toList "::>".toList []) [0, 1] none).2 = none ∧
      (processFiles (fun _ => ⟨"a <::X::> b".toList, 420⟩)
        (buildNewReplacer "<::".toList "::>".toList []) [1, 0] none).2 = none) ∨
      (∃ l1 l2,
        (processFiles (fun _ => ⟨"a <::X::> b".toList, 420⟩)
          (buildNewReplacer "<::".toList "::>".toList []) [0, 1] none).2
            = some l1 ∧
        (processFiles (fun _ => ⟨"a <::X::> b".toList, 420⟩)
          (buildNewReplacer "<::".toList "::>".toList []) [1, 0] none).2
            = some l2 ∧
        l1.Perm l2)) :=
  c9_order_invariance "<::".toList "::>".toList [] _ [0, 1] [1, 0] none
    (by decide) (by decide)
